import Mathlib

/-!
Verification of the polyhedral dependence-and-scheduling core found in
src/polly/sujingqiao/worker.cpp and src/polly/sujingqiao/worker2.cpp.

The two source files sketch a Polly-style pipeline: SCoP detection,
polyhedral model construction, dependence analysis, schedule optimization
(tiling with legality fallback) and code generation.  The pipeline glue
(detection loop, model building loop, the tile-validate-fallback step, and
the no-SCoP early returns of the passes) is embedded directly from the
source.  The mathematical routines the source delegates to the external
isl library (lexicographic schedule comparison, band tiling, dependence
computation, legality checking) and the model-validation errors are not
part of the repository; those definitions are modelled from the design
specification and are marked as such in their doc comments.
-/

namespace PollyCore

/-- Modelled from the spec: timestamps are integer vectors compared
lexicographically; this is the strict lexicographic order on timestamp
vectors used by the isl schedule comparisons that the source calls.
A shorter vector that is a proper prefix of a longer one compares before
it. -/
def lexLt : List Int → List Int → Bool
  | [], [] => false
  | [], _ :: _ => true
  | _ :: _, [] => false
  | a :: as, b :: bs => if a < b then true else if a = b then lexLt as bs else false

/-- Total integer index into a timestamp vector, defaulting to 0 out of
range; used to state coordinatewise properties of schedule
transformations. -/
def nth (xs : List Int) (i : Nat) : Int := xs.getD i 0

/-- A statement instance: a statement identifier together with the integer
iteration vector at which it executes. -/
structure Instance where
  stmt : Nat
  iter : List Int
deriving DecidableEq

/-- A dependence edge between two statement instances, meaning the source
must execute no later than the target. -/
structure Dep where
  src : Instance
  tgt : Instance
deriving DecidableEq

/-- A schedule maps each statement instance to a logical timestamp
vector. -/
abbrev Schedule := Instance → List Int

/-- Modelled from the spec: the per-dependence legality condition checked
by the external isl_schedule_fulfills_dependences that worker.cpp calls:
the schedule rank of the source is lexicographically before that of the
target, equality being permitted only for the same instance. -/
def respects (s : Schedule) (d : Dep) : Bool :=
  lexLt (s d.src) (s d.tgt) || decide (d.src = d.tgt)

/-- Modelled from the spec: the legality predicate of the external
isl_schedule_fulfills_dependences: a candidate schedule is legal exactly
when every dependence in the set is respected. -/
def fulfills (s : Schedule) (deps : List Dep) : Bool :=
  deps.all (fun d => respects s d)

/-- Modelled from the spec: the band tiling performed by the external
isl_schedule_node_band_tile that worker.cpp calls: the band of
consecutive timestamp dimensions starting at position pre, of width equal
to the length of the tile size vector T, is rewritten so that each
coordinate t becomes the pair of outer coordinate floor(t/Ti) and inner
coordinate t mod Ti, the outer tile coordinates preceding the inner point
coordinates. -/
def tileVec (pre : Nat) (T : List Int) (ts : List Int) : List Int :=
  ts.take pre ++
    (List.zipWith (fun t q => Int.fdiv t q) ((ts.drop pre).take T.length) T ++
      (List.zipWith (fun t q => Int.fmod t q) ((ts.drop pre).take T.length) T ++
        ts.drop (pre + T.length)))

/-- Pointwise application of band tiling to a schedule. -/
def tileSchedule (pre : Nat) (T : List Int) (s : Schedule) : Schedule :=
  fun x => tileVec pre T (s x)

/-- Embedding of optimizeSchedule from worker.cpp: tile the current
schedule with sizes 32 and 32 on the leading band, re-validate the result
against the full dependence set, and discard the transformation entirely
when validation fails, keeping the pre-transformation schedule. -/
def optimizeSchedule (deps : List Dep) (cur : Schedule) : Schedule :=
  let optimized := tileSchedule 0 [32, 32] cur
  if fulfills optimized deps then optimized else cur

/-- Memory access kind, as in the MK_WRITE and MK_READ tags of
worker.cpp and the WRITE and READ access types of worker2.cpp. -/
inductive MemKind
  | MK_WRITE
  | MK_READ
deriving DecidableEq

/-- An LLVM IR instruction, abstracted to the three shapes the source
distinguishes: store, load, and anything else, each with an identity. -/
inductive Inst
  | store (id : Nat)
  | load (id : Nat)
  | other (id : Nat)
deriving DecidableEq

/-- An access relation of a model statement: kind, dimensionality of its
iteration-vector source, and target array identifier. -/
structure AccessRel where
  kind : MemKind
  srcDim : Nat
  arr : Nat
deriving DecidableEq

/-- A model statement built by buildScop in worker.cpp: identity, domain
dimensionality, and its ordered access relations. -/
structure ScopStmt where
  sid : Nat
  domainDim : Nat
  accesses : List AccessRel
deriving DecidableEq

/-- Embedding of the statement template of buildScop in worker.cpp: the
domain read from the string with the two loop indices i and j, one WRITE
access to array C and one READ access to array A, both with the same
two-dimensional iteration-vector source. -/
def buildStmtForStore (id : Nat) : ScopStmt :=
  ⟨id, 2, [⟨MemKind.MK_WRITE, 2, 0⟩, ⟨MemKind.MK_READ, 2, 1⟩]⟩

/-- Embedding of buildScop from worker.cpp: iterate over the basic blocks
of the SCoP and over the instructions of each block, and lift exactly the
store instructions into model statements. -/
def buildScop (bbs : List (List Inst)) : List ScopStmt :=
  bbs.flatMap (fun bb => bb.filterMap (fun i =>
    match i with
    | Inst.store id => some (buildStmtForStore id)
    | Inst.load _ => none
    | Inst.other _ => none))

/-- Number of store instructions in a list of basic blocks. -/
def countStores (bbs : List (List Inst)) : Nat :=
  (bbs.map (fun bb => bb.countP (fun i =>
    match i with
    | Inst.store _ => true
    | Inst.load _ => false
    | Inst.other _ => false))).sum

/-- A natural loop of a function, with its identity and its basic
blocks. -/
structure LoopT where
  lid : Nat
  blocks : List (List Inst)
deriving DecidableEq

/-- Embedding of the detection loop of ScopDetectionPass.run in
worker2.cpp: walk the loop list and return on the first loop accepted by
the affine test, which is the external isAffineLoop and is therefore kept
abstract as the parameter aff. -/
def findAffineLoop (aff : LoopT → Bool) : List LoopT → Option LoopT
  | [] => none
  | L :: rest => if aff L then some L else findAffineLoop aff rest

/-- Embedding of ScopDetectionPass.run in worker2.cpp: an ineligible
function yields no result; otherwise the result holds the single loop on
which the walk first hit the affine test, and no result is produced when
no loop passes it. -/
def scopDetectionRun (eligible : Bool) (aff : LoopT → Bool) (loops : List LoopT) :
    Option (List LoopT) :=
  if eligible = false then none
  else
    match findAffineLoop aff loops with
    | some L => some [L]
    | none => none

/-- A memory access collected by BuildScopPass.run in worker2.cpp: the
access kind together with the identity of the instruction it was built
from. -/
structure MemAcc where
  kind : MemKind
  ref : Nat
deriving DecidableEq

/-- Embedding of the access-collection loop of BuildScopPass.run in
worker2.cpp: both stores and loads contribute accesses, tagged WRITE and
READ respectively. -/
def accessesOfLoop (L : LoopT) : List MemAcc :=
  L.blocks.flatMap (fun bb => bb.filterMap (fun i =>
    match i with
    | Inst.store id => some ⟨MemKind.MK_WRITE, id⟩
    | Inst.load id => some ⟨MemKind.MK_READ, id⟩
    | Inst.other _ => none))

/-- The SCoP model object carried in the polly.scop metadata of a
function in worker2.cpp: domains, collected accesses, dependences and the
current schedule. -/
structure ScopInfo where
  domain : List Instance
  accs : List MemAcc
  deps : List Dep
  sched : Schedule

/-- A function being transformed by the passes of worker2.cpp, reduced to
what the passes touch: the polly.scop metadata slot and the IR body. -/
structure IRFunction where
  scopMeta : Option ScopInfo
  body : List Nat

/-- Replace the polly.scop metadata of a function. -/
def setScopMeta (F : IRFunction) (m : Option ScopInfo) : IRFunction :=
  ⟨m, F.body⟩

/-- Replace the body of a function. -/
def setBody (F : IRFunction) (b : List Nat) : IRFunction :=
  ⟨F.scopMeta, b⟩

/-- Replace the schedule of a SCoP. -/
def setSched (S : ScopInfo) (sc : Schedule) : ScopInfo :=
  ⟨S.domain, S.accs, S.deps, sc⟩

/-- Modelled from the spec: the external extractLoopDomain of
worker2.cpp, which turns a detected loop into the iteration domain of its
statement instances; abstracted to one instance seed per loop. -/
def extractLoopDomain (L : LoopT) : Instance :=
  ⟨L.lid, []⟩

/-- Embedding of the model-building body of BuildScopPass.run in
worker2.cpp: one domain per detected loop plus the collected accesses; the
dependences are filled in later by the dependence analysis and the
schedule starts from the loop order. -/
def buildScopInfo (loops : List LoopT) : ScopInfo :=
  ⟨loops.map extractLoopDomain, loops.flatMap accessesOfLoop, [],
    fun x => [Int.ofNat x.stmt]⟩

/-- Preservation summary returned by a pass, as in PreservedAnalyses of
worker2.cpp. -/
inductive PreservedAnalyses
  | all
  | keepNone
deriving DecidableEq

/-- Modelled from the spec: the external
isl_schedule_from_domain_and_dependences called by worker2.cpp, which
synthesizes a legal schedule from the domain and the dependences; the
specification fixes its baseline as the identity schedule with a
per-statement sequencing index. -/
def scheduleFromDomainAndDeps (_dom : List Instance) (_deps : List Dep) : Schedule :=
  fun x => Int.ofNat x.stmt :: x.iter

/-- Modelled from the spec: the external AST-driven code emission of
CodeGenPass.run in worker2.cpp, rematerializing one statement per domain
instance. -/
def generateLLVMFromAST (S : ScopInfo) : List Nat :=
  S.domain.map (fun x => x.stmt)

/-- Embedding of BuildScopPass.run from worker2.cpp: with no detection
result the pass preserves all analyses and leaves the function untouched;
otherwise it builds the SCoP model, stores it in the polly.scop metadata
and preserves nothing. -/
def buildScopPassRun (detect : Option (List LoopT)) (F : IRFunction) :
    PreservedAnalyses × IRFunction :=
  match detect with
  | none => (PreservedAnalyses.all, F)
  | some loops =>
      (PreservedAnalyses.keepNone, setScopMeta F (some (buildScopInfo loops)))

/-- Embedding of OptimizeSchedulePass.run from worker2.cpp: with no SCoP
metadata the pass preserves all analyses and leaves the function
untouched; otherwise it synthesizes a schedule from the domain and the
dependences, installs it, and preserves nothing. -/
def optimizeSchedulePassRun (F : IRFunction) : PreservedAnalyses × IRFunction :=
  match F.scopMeta with
  | none => (PreservedAnalyses.all, F)
  | some S =>
      (PreservedAnalyses.keepNone,
        setScopMeta F (some (setSched S (scheduleFromDomainAndDeps S.domain S.deps))))

/-- Embedding of CodeGenPass.run from worker2.cpp: with no SCoP metadata
the pass preserves all analyses and leaves the function untouched;
otherwise it regenerates the body from the final schedule and preserves
nothing. -/
def codeGenPassRun (F : IRFunction) : PreservedAnalyses × IRFunction :=
  match F.scopMeta with
  | none => (PreservedAnalyses.all, F)
  | some S => (PreservedAnalyses.keepNone, setBody F (generateLLVMFromAST S))

/-- A dynamic memory event for dependence analysis: the statement
instance identifier, its timestamp under the original execution order,
and the accessed array element. -/
structure Evt where
  sid : Nat
  time : List Int
  elem : List Int
deriving DecidableEq

/-- Modelled from the spec: the candidate source writes of a read in the
RAW dependence computation delegated to the external
isl_dependence_from_scop: writes to the same array element that execute
strictly before the read under the original order. -/
def writesBefore (writes : List Evt) (r : Evt) : List Evt :=
  writes.filter (fun w => decide (w.elem = r.elem) && lexLt w.time r.time)

/-- Keep the later of an accumulated candidate and a new candidate under
the original execution order. -/
def pickLater (acc : Option Evt) (w : Evt) : Option Evt :=
  match acc with
  | none => some w
  | some b => if lexLt b.time w.time then some w else some b

/-- Modelled from the spec: the last-write selection of the RAW
dependence computation: among the candidate writes of a read, keep the
most recent one under the original execution order. -/
def lastWrite (writes : List Evt) (r : Evt) : Option Evt :=
  (writesBefore writes r).foldl pickLater none

/-- Modelled from the spec: the RAW dependence relation of the external
isl_dependence_from_scop: one edge from the last write of an element to
each read of that element, when such a write exists. -/
def computeRAW (writes reads : List Evt) : List (Evt × Evt) :=
  reads.filterMap (fun r => (lastWrite writes r).map (fun w => (w, r)))

/-- Errors of model construction, from the design contract of the
polyhedral model. -/
inductive ModelError
  | nonAffineDomain
  | dimensionMismatch
deriving DecidableEq

/-- An affine constraint over loop indices and parameters: coefficient
vector and constant term. -/
structure AffConstraint where
  coeffs : List Int
  const : Int
deriving DecidableEq

/-- A raw iteration-domain description handed to model construction:
either a finite union of affine polyhedra, or a non-affine description
that cannot be so expressed. -/
inductive RawDomain
  | polyUnion (polys : List (List AffConstraint))
  | nonAffine (tag : Nat)
deriving DecidableEq

/-- A raw access relation handed to model construction: kind, source
dimensionality and target array. -/
structure RawAccess where
  kind : MemKind
  srcDim : Nat
  arr : Nat
deriving DecidableEq

/-- A raw statement handed to model construction: nesting depth, domain
and access relations. -/
structure RawStmt where
  depth : Nat
  domain : RawDomain
  accesses : List RawAccess
deriving DecidableEq

/-- Whether a raw domain is a finite union of affine polyhedra. -/
def isAffineDomain : RawDomain → Bool
  | RawDomain.polyUnion _ => true
  | RawDomain.nonAffine _ => false

/-- Whether every access relation of a raw statement has the source
dimensionality of the statement domain. -/
def dimsOk (s : RawStmt) : Bool :=
  s.accesses.all (fun a => decide (a.srcDim = s.depth))

/-- A validated polyhedral model: the frozen statement list. -/
structure Model where
  stmts : List RawStmt
deriving DecidableEq

/-- Modelled from the spec: model construction with the validation the
design contract requires and the source sketch omits: each statement is
checked in order, first that its domain is a finite union of affine
polyhedra and then that each access matches the domain dimensionality;
the first violation aborts construction with the corresponding error and
no partial model. -/
def mkModel : List RawStmt → Except ModelError Model
  | [] => Except.ok ⟨[]⟩
  | s :: rest =>
    match isAffineDomain s.domain, dimsOk s, mkModel rest with
    | false, _, _ => Except.error ModelError.nonAffineDomain
    | true, false, _ => Except.error ModelError.dimensionMismatch
    | true, true, Except.error e => Except.error e
    | true, true, Except.ok m => Except.ok ⟨s :: m.stmts⟩

/-- A raw statement with a valid affine domain and matching access
dimensionalities. -/
def stmtValid (s : RawStmt) : Bool :=
  isAffineDomain s.domain && dimsOk s

/-- Concrete raw statement with a dimension mismatch: depth two but a
one-dimensional access source. -/
def stmtMismatch : RawStmt :=
  ⟨2, RawDomain.polyUnion [[⟨[1, 0], 0⟩]], [⟨MemKind.MK_WRITE, 1, 0⟩]⟩

/-- Concrete raw statement with a non-affine domain. -/
def stmtNonAff : RawStmt :=
  ⟨2, RawDomain.nonAffine 7, [⟨MemKind.MK_READ, 2, 1⟩]⟩

/-- Concrete model input holding both a non-affine domain and, in a later
statement, a dimension mismatch. -/
def bothBadInput : List RawStmt :=
  [stmtNonAff, stmtMismatch]

/-- Concrete affine test on loops used to instantiate the detection
theorems: a loop passes the test exactly when its identifier is odd. -/
def affOdd (L : LoopT) : Bool :=
  decide (L.lid % 2 = 1)

theorem lexLt_cons_cons (a b : Int) (as bs : List Int) :
    lexLt (a :: as) (b :: bs) =
      if a < b then true else if a = b then lexLt as bs else false := rfl

theorem lexLt_irrefl (as : List Int) : lexLt as as = false := by
  induction as with
  | nil => rfl
  | cons a as ih => simp [lexLt, ih]

theorem lexLt_trans {as bs cs : List Int} (h1 : lexLt as bs = true)
    (h2 : lexLt bs cs = true) : lexLt as cs = true := by
  induction as generalizing bs cs with
  | nil =>
    cases bs with
    | nil => simp [lexLt] at h1
    | cons b bs =>
      cases cs with
      | nil => simp [lexLt] at h2
      | cons c cs => rfl
  | cons a as ih =>
    cases bs with
    | nil => simp [lexLt] at h1
    | cons b bs =>
      cases cs with
      | nil => simp [lexLt] at h2
      | cons c cs =>
        rw [lexLt_cons_cons] at h1 h2 ⊢
        by_cases hab : a < b
        · by_cases hbc : b < c
          · simp [lt_trans hab hbc]
          · simp [hbc] at h2
            rcases h2 with ⟨hbc', _⟩
            simp [hbc' ▸ hab]
        · simp [hab] at h1
          rcases h1 with ⟨hab', h1'⟩
          subst hab'
          by_cases hbc : a < c
          · simp [hbc]
          · simp [hbc] at h2 ⊢
            rcases h2 with ⟨hbc', h2'⟩
            exact ⟨hbc', ih h1' h2'⟩

theorem lexLt_asymm {as bs : List Int} (h : lexLt as bs = true) :
    lexLt bs as = false := by
  by_contra hc
  have h2 : lexLt bs as = true := by
    cases hq : lexLt bs as with
    | false => exact absurd hq hc
    | true => rfl
  have := lexLt_trans h h2
  rw [lexLt_irrefl] at this
  exact Bool.false_ne_true this

theorem lexLt_append_congr (as bs xs ys : List Int) (h : as.length = bs.length) :
    lexLt (as ++ xs) (bs ++ ys) = if as = bs then lexLt xs ys else lexLt as bs := by
  induction as generalizing bs with
  | nil =>
    cases bs with
    | nil => simp
    | cons b bs => simp at h
  | cons a as ih =>
    cases bs with
    | nil => simp at h
    | cons b bs =>
      simp only [List.length_cons, Nat.succ_inj] at h
      simp only [List.cons_append, lexLt_cons_cons]
      by_cases hab : a < b
      · have hne : a ≠ b := ne_of_lt hab
        simp [hab, hne]
      · by_cases heq : a = b
        · subst heq
          rw [ih bs h]
          by_cases htl : as = bs
          · simp [htl, hab]
          · have hne : a :: as ≠ a :: bs := by
              intro hcontra
              exact htl (List.cons.injEq a as a bs ▸ hcontra).2
            simp [hab, htl, hne]
        · have hne : a :: as ≠ b :: bs := by
            intro hcontra
            exact heq (List.cons.injEq a as b bs ▸ hcontra).1
          simp [hab, heq, hne]

theorem nth_cons_succ (x : Int) (xs : List Int) (i : Nat) :
    nth (x :: xs) (i + 1) = nth xs i := rfl

theorem nth_append_left (as bs : List Int) (i : Nat) (h : i < as.length) :
    nth (as ++ bs) i = nth as i := by
  induction as generalizing i with
  | nil => simp at h
  | cons a as ih =>
    cases i with
    | zero => rfl
    | succ j =>
      simp only [List.length_cons, Nat.succ_lt_succ_iff] at h
      simpa [nth_cons_succ] using ih j h

theorem nth_append_right (as bs : List Int) (i : Nat) :
    nth (as ++ bs) (as.length + i) = nth bs i := by
  induction as with
  | nil => simp [nth]
  | cons a as ih =>
    have : a :: as ++ bs = a :: (as ++ bs) := rfl
    rw [this, List.length_cons]
    have harith : as.length + 1 + i = (as.length + i) + 1 := by omega
    rw [harith, nth_cons_succ]
    exact ih

theorem nth_take (xs : List Int) (n i : Nat) (h : i < n) :
    nth (xs.take n) i = nth xs i := by
  induction xs generalizing n i with
  | nil => simp [nth]
  | cons x xs ih =>
    cases n with
    | zero => omega
    | succ m =>
      cases i with
      | zero => rfl
      | succ j =>
        simp only [List.take_succ_cons, nth_cons_succ]
        exact ih m j (by omega)

theorem nth_drop (xs : List Int) (n i : Nat) :
    nth (xs.drop n) i = nth xs (n + i) := by
  induction xs generalizing n with
  | nil => simp [nth]
  | cons x xs ih =>
    cases n with
    | zero => simp
    | succ m =>
      have harith : m + 1 + i = (m + i) + 1 := by omega
      rw [List.drop_succ_cons, harith, nth_cons_succ]
      exact ih m

theorem nth_zipWith (f : Int → Int → Int) (as bs : List Int) (i : Nat)
    (ha : i < as.length) (hb : i < bs.length) :
    nth (List.zipWith f as bs) i = f (nth as i) (nth bs i) := by
  induction as generalizing bs i with
  | nil => simp at ha
  | cons a as ih =>
    cases bs with
    | nil => simp at hb
    | cons b bs =>
      cases i with
      | zero => rfl
      | succ j =>
        simp only [List.length_cons, Nat.succ_lt_succ_iff] at ha hb
        simpa [List.zipWith, nth_cons_succ] using ih bs j ha hb

theorem nth_mem (xs : List Int) (i : Nat) (h : i < xs.length) : nth xs i ∈ xs := by
  induction xs generalizing i with
  | nil => simp at h
  | cons x xs ih =>
    cases i with
    | zero => exact List.mem_cons_self x xs
    | succ j =>
      simp only [List.length_cons, Nat.succ_lt_succ_iff] at h
      exact List.mem_cons_of_mem x (ih j h)

theorem tileVec_band_length (pre : Nat) (T ts : List Int)
    (hlen : pre + T.length ≤ ts.length) :
    ((ts.drop pre).take T.length).length = T.length := by
  simp only [List.length_take, List.length_drop]
  omega

theorem nth_append_right2 (as bs : List Int) (p i : Nat) (hp : as.length = p) :
    nth (as ++ bs) (p + i) = nth bs i := by
  subst hp
  exact nth_append_right as bs i

/-- C4: for a band of consecutive schedule dimensions and a strictly
positive tile size vector T, tiling rewrites each tiled coordinate t into
the pair of floor(t/Ti) (outer tile coordinate) and t mod Ti (inner point
coordinate, in the range from 0 to Ti), the outer coordinates preceding
the inner ones, coordinates outside the band are preserved, and the
transformed band occupies exactly twice its previous width in the
timestamp vector. -/
theorem band_tile_floor_mod (pre : Nat) (T ts : List Int)
    (hpos : ∀ q ∈ T, 0 < q) (hlen : pre + T.length ≤ ts.length) :
    (tileVec pre T ts).length = ts.length + T.length ∧
    (∀ j, j < pre → nth (tileVec pre T ts) j = nth ts j) ∧
    (∀ i, i < T.length →
      nth (tileVec pre T ts) (pre + i) = Int.fdiv (nth ts (pre + i)) (nth T i) ∧
      nth (tileVec pre T ts) (pre + T.length + i) =
        Int.fmod (nth ts (pre + i)) (nth T i) ∧
      nth T i * Int.fdiv (nth ts (pre + i)) (nth T i) +
        Int.fmod (nth ts (pre + i)) (nth T i) = nth ts (pre + i) ∧
      0 ≤ Int.fmod (nth ts (pre + i)) (nth T i) ∧
      Int.fmod (nth ts (pre + i)) (nth T i) < nth T i) ∧
    (∀ j, nth (tileVec pre T ts) (pre + T.length + T.length + j) =
      nth ts (pre + T.length + j)) := by
  have hbl := tileVec_band_length pre T ts hlen
  have htake : (ts.take pre).length = pre := by
    simp only [List.length_take]
    omega
  have hzf : (List.zipWith (fun t q => Int.fdiv t q) ((ts.drop pre).take T.length)
      T).length = T.length := by
    simp only [List.length_zipWith, hbl]
    omega
  have hzm : (List.zipWith (fun t q => Int.fmod t q) ((ts.drop pre).take T.length)
      T).length = T.length := by
    simp only [List.length_zipWith, hbl]
    omega
  have hband : ∀ i, i < T.length →
      nth ((ts.drop pre).take T.length) i = nth ts (pre + i) := by
    intro i hi
    rw [nth_take _ _ _ hi, nth_drop]
  refine ⟨?_, ?_, ?_, ?_⟩
  · simp only [tileVec, List.length_append, htake, hzf, hzm, List.length_drop]
    omega
  · intro j hj
    simp only [tileVec]
    rw [nth_append_left _ _ j (by rw [htake]; exact hj)]
    exact nth_take ts pre j hj
  · intro i hi
    have hq : 0 < nth T i := hpos _ (nth_mem T i hi)
    refine ⟨?_, ?_, Int.fdiv_add_fmod _ _, ?_, Int.fmod_lt_of_pos _ hq⟩
    · simp only [tileVec]
      rw [nth_append_right2 _ _ pre i htake]
      rw [nth_append_left _ _ i (by rw [hzf]; exact hi)]
      rw [nth_zipWith _ _ _ i (by rw [hbl]; exact hi) hi]
      rw [hband i hi]
    · rw [show pre + T.length + i = pre + (T.length + i) by omega]
      simp only [tileVec]
      rw [nth_append_right2 _ _ pre _ htake]
      rw [nth_append_right2 _ _ T.length i hzf]
      rw [nth_append_left _ _ i (by rw [hzm]; exact hi)]
      rw [nth_zipWith _ _ _ i (by rw [hbl]; exact hi) hi]
      rw [hband i hi]
    · rw [Int.fmod_eq_emod _ (le_of_lt hq)]
      exact Int.emod_nonneg _ (ne_of_gt hq)
  · intro j
    rw [show pre + T.length + T.length + j = pre + (T.length + (T.length + j)) by omega]
    simp only [tileVec]
    rw [nth_append_right2 _ _ pre _ htake]
    rw [nth_append_right2 _ _ T.length _ hzf]
    rw [nth_append_right2 _ _ T.length _ hzm]
    rw [nth_drop]

/-- Concrete instantiation of the band tiling theorem. -/
theorem band_tile_floor_mod_witness :
    nth (tileVec 1 [2, 3] [5, 7, 9, 11]) (1 + 0) =
      Int.fdiv (nth [5, 7, 9, 11] (1 + 0)) (nth [2, 3] 0) ∧
    (tileVec 1 [2, 3] [5, 7, 9, 11]).length = 6 :=
  ⟨((band_tile_floor_mod 1 [2, 3] [5, 7, 9, 11] (by decide) (by decide)).2.2.1 0
      (by decide)).1,
    (band_tile_floor_mod 1 [2, 3] [5, 7, 9, 11] (by decide) (by decide)).1⟩

theorem zipWith_fdiv_ones (band : List Int) (k : Nat) (h : band.length = k) :
    List.zipWith (fun t q => Int.fdiv t q) band (List.replicate k 1) = band := by
  induction band generalizing k with
  | nil => simp
  | cons t band ih =>
    cases k with
    | zero => simp at h
    | succ m =>
      simp only [List.length_cons, Nat.succ_inj] at h
      simp [List.replicate_succ, List.zipWith, Int.fdiv_one, ih m h]

theorem zipWith_fmod_ones (band : List Int) (k : Nat) (h : band.length = k) :
    List.zipWith (fun t q => Int.fmod t q) band (List.replicate k 1) =
      List.replicate k 0 := by
  induction band generalizing k with
  | nil =>
    subst h
    simp
  | cons t band ih =>
    cases k with
    | zero => simp at h
    | succ m =>
      simp only [List.length_cons, Nat.succ_inj] at h
      simp [List.replicate_succ, List.zipWith, Int.fmod_one, ih m h]

theorem tileVec_ones (pre k : Nat) (ts : List Int) (hlen : pre + k ≤ ts.length) :
    tileVec pre (List.replicate k 1) ts =
      ts.take (pre + k) ++ (List.replicate k 0 ++ ts.drop (pre + k)) := by
  have hk : (List.replicate k (1 : Int)).length = k := List.length_replicate k 1
  have hbl : ((ts.drop pre).take k).length = k := by
    simp only [List.length_take, List.length_drop]
    omega
  simp only [tileVec, hk]
  rw [zipWith_fdiv_ones _ k hbl, zipWith_fmod_ones _ k hbl]
  rw [List.take_add]
  simp [List.append_assoc]

/-- C6: tiling a band with the all-ones tile size vector preserves the
leaf execution order: any two instances compare under the tiled schedule
exactly as they compare under the untiled schedule. -/
theorem tile_ones_same_order (pre k : Nat) (s : Schedule) (x y : Instance) (n : Nat)
    (hx : (s x).length = n) (hy : (s y).length = n) (hband : pre + k ≤ n) :
    lexLt (tileSchedule pre (List.replicate k 1) s x)
        (tileSchedule pre (List.replicate k 1) s y) =
      lexLt (s x) (s y) := by
  have hlx : pre + k ≤ (s x).length := by omega
  have hly : pre + k ≤ (s y).length := by omega
  have hlena : ((s x).take (pre + k)).length = pre + k := by
    simp only [List.length_take]
    omega
  have hlenb : ((s y).take (pre + k)).length = pre + k := by
    simp only [List.length_take]
    omega
  have hab : ((s x).take (pre + k)).length = ((s y).take (pre + k)).length := by
    rw [hlena, hlenb]
  have hrepl : (List.replicate k (0 : Int)).length = (List.replicate k (0 : Int)).length :=
    rfl
  simp only [tileSchedule]
  rw [tileVec_ones pre k (s x) hlx, tileVec_ones pre k (s y) hly]
  rw [lexLt_append_congr _ _ _ _ hab]
  have hxsplit : s x = (s x).take (pre + k) ++ (s x).drop (pre + k) :=
    (List.take_append_drop (pre + k) (s x)).symm
  have hysplit : s y = (s y).take (pre + k) ++ (s y).drop (pre + k) :=
    (List.take_append_drop (pre + k) (s y)).symm
  conv_rhs => rw [hxsplit, hysplit]
  rw [lexLt_append_congr _ _ _ _ hab]
  by_cases hpq : (s x).take (pre + k) = (s y).take (pre + k)
  · simp only [hpq, if_pos rfl]
    rw [lexLt_append_congr _ _ _ _ hrepl]
    simp
  · simp only [if_neg hpq]

/-- Concrete instantiation of the order preservation of all-ones
tiling. -/
theorem tile_ones_same_order_witness :
    lexLt (tileSchedule 1 (List.replicate 2 1) Instance.iter ⟨0, [3, 4, 5]⟩)
        (tileSchedule 1 (List.replicate 2 1) Instance.iter ⟨0, [3, 4, 6]⟩) =
      lexLt [3, 4, 5] [3, 4, 6] :=
  tile_ones_same_order 1 2 Instance.iter ⟨0, [3, 4, 5]⟩ ⟨0, [3, 4, 6]⟩ 3
    (by decide) (by decide) (by decide)

/-- C1: the schedule produced by optimizeSchedule assigns every
dependence source a timestamp vector lexicographically before that of the
target, equality being permitted only for the same instance, provided the
incoming schedule already respects the dependences (which the identity
initial schedule does by construction of the dependences); and a
candidate schedule is accepted by the legality check exactly when this
holds for every dependence. -/
theorem legality_soundness (deps : List Dep) (cur : Schedule)
    (hcur : ∀ d ∈ deps, lexLt (cur d.src) (cur d.tgt) = true ∨ d.src = d.tgt) :
    (∀ d ∈ deps,
      lexLt (optimizeSchedule deps cur d.src) (optimizeSchedule deps cur d.tgt) = true ∨
        d.src = d.tgt) ∧
    (∀ s : Schedule, fulfills s deps = true ↔
      ∀ d ∈ deps, lexLt (s d.src) (s d.tgt) = true ∨ d.src = d.tgt) := by
  have hiff : ∀ s : Schedule, fulfills s deps = true ↔
      ∀ d ∈ deps, lexLt (s d.src) (s d.tgt) = true ∨ d.src = d.tgt := by
    intro s
    simp only [fulfills, List.all_eq_true, respects, Bool.or_eq_true,
      decide_eq_true_eq]
  refine ⟨?_, hiff⟩
  by_cases hopt : fulfills (tileSchedule 0 [32, 32] cur) deps = true
  · intro d hd
    have : optimizeSchedule deps cur = tileSchedule 0 [32, 32] cur := by
      simp [optimizeSchedule, hopt]
    rw [this]
    exact (hiff _).mp hopt d hd
  · intro d hd
    have : optimizeSchedule deps cur = cur := by
      simp [optimizeSchedule, hopt]
    rw [this]
    exact hcur d hd

/-- Concrete instantiation of legality soundness: one dependence between
two distinct instances under the identity schedule. -/
theorem legality_soundness_witness :
    lexLt
        (optimizeSchedule [⟨⟨0, [1, 2]⟩, ⟨0, [1, 3]⟩⟩] Instance.iter ⟨0, [1, 2]⟩)
        (optimizeSchedule [⟨⟨0, [1, 2]⟩, ⟨0, [1, 3]⟩⟩] Instance.iter ⟨0, [1, 3]⟩) =
      true ∨
      (⟨⟨0, [1, 2]⟩, ⟨0, [1, 3]⟩⟩ : Dep).src = (⟨⟨0, [1, 2]⟩, ⟨0, [1, 3]⟩⟩ : Dep).tgt :=
  (legality_soundness [⟨⟨0, [1, 2]⟩, ⟨0, [1, 3]⟩⟩] Instance.iter
      (by decide)).1 ⟨⟨0, [1, 2]⟩, ⟨0, [1, 3]⟩⟩ (List.mem_singleton.mpr rfl)

/-- C2: the synthesizer embedded in optimizeSchedule never fails: its
result is either the tiled schedule or, exactly when the tiled candidate
fails re-validation against the original dependence set, the
pre-transformation schedule unchanged; in particular the result always
satisfies the legality check whenever the incoming schedule does. -/
theorem synthesizer_total_fallback (deps : List Dep) (cur : Schedule)
    (hcur : fulfills cur deps = true) :
    (optimizeSchedule deps cur = tileSchedule 0 [32, 32] cur ∨
      optimizeSchedule deps cur = cur) ∧
    fulfills (optimizeSchedule deps cur) deps = true ∧
    (fulfills (tileSchedule 0 [32, 32] cur) deps = false →
      optimizeSchedule deps cur = cur) := by
  by_cases hopt : fulfills (tileSchedule 0 [32, 32] cur) deps = true
  · refine ⟨Or.inl ?_, ?_, ?_⟩
    · simp [optimizeSchedule, hopt]
    · have : optimizeSchedule deps cur = tileSchedule 0 [32, 32] cur := by
        simp [optimizeSchedule, hopt]
      rw [this]
      exact hopt
    · intro hfalse
      rw [hopt] at hfalse
      exact absurd hfalse (by simp)
  · refine ⟨Or.inr ?_, ?_, ?_⟩
    · simp [optimizeSchedule, hopt]
    · have : optimizeSchedule deps cur = cur := by
        simp [optimizeSchedule, hopt]
      rw [this]
      exact hcur
    · intro _
      simp [optimizeSchedule, hopt]

/-- Concrete instantiation of the fallback totality: a dependence whose
direction the 32 by 32 tiling cannot break, under the identity
schedule. -/
theorem synthesizer_total_fallback_witness :
    fulfills
        (optimizeSchedule [⟨⟨0, [1, 2]⟩, ⟨0, [1, 3]⟩⟩] Instance.iter)
        [⟨⟨0, [1, 2]⟩, ⟨0, [1, 3]⟩⟩] = true :=
  (synthesizer_total_fallback [⟨⟨0, [1, 2]⟩, ⟨0, [1, 3]⟩⟩] Instance.iter
      (by decide)).2.1

/-- C5: schedule synthesis is deterministic: structurally identical
model and dependence inputs produce structurally identical schedules,
both for the tile-accepting path of optimizeSchedule, for its fallback
path, and for the worker2 schedule pass. -/
theorem synthesis_deterministic (deps1 deps2 : List Dep) (s1 s2 : Schedule)
    (F1 F2 : IRFunction) (hd : deps1 = deps2) (hs : s1 = s2) (hF : F1 = F2) :
    optimizeSchedule deps1 s1 = optimizeSchedule deps2 s2 ∧
    (fulfills (tileSchedule 0 [32, 32] s1) deps1 = false →
      optimizeSchedule deps1 s1 = s1 ∧ optimizeSchedule deps2 s2 = s2) ∧
    optimizeSchedulePassRun F1 = optimizeSchedulePassRun F2 := by
  subst hd
  subst hs
  subst hF
  refine ⟨rfl, ?_, rfl⟩
  intro hfail
  have : optimizeSchedule deps1 s1 = s1 := by
    simp [optimizeSchedule, hfail]
  exact ⟨this, this⟩

/-- Concrete instantiation of determinism of synthesis. -/
theorem synthesis_deterministic_witness :
    optimizeSchedule [] Instance.iter = optimizeSchedule [] Instance.iter :=
  (synthesis_deterministic [] [] Instance.iter Instance.iter ⟨none, []⟩ ⟨none, []⟩
      rfl rfl rfl).1

theorem lexLt_trichot (as bs : List Int) :
    lexLt as bs = true ∨ lexLt bs as = true ∨ as = bs := by
  induction as generalizing bs with
  | nil =>
    cases bs with
    | nil => exact Or.inr (Or.inr rfl)
    | cons b bs => exact Or.inl rfl
  | cons a as ih =>
    cases bs with
    | nil => exact Or.inr (Or.inl rfl)
    | cons b bs =>
      rcases lt_trichotomy a b with hab | hab | hab
      · exact Or.inl (by simp [lexLt_cons_cons, hab])
      · subst hab
        rcases ih bs with h | h | h
        · exact Or.inl (by simp [lexLt_cons_cons, h])
        · exact Or.inr (Or.inl (by simp [lexLt_cons_cons, h]))
        · exact Or.inr (Or.inr (by rw [h]))
      · exact Or.inr (Or.inl (by simp [lexLt_cons_cons, hab]))

theorem foldl_pickLater_some (l : List Evt) (b : Evt) :
    ∃ w, l.foldl pickLater (some b) = some w := by
  induction l generalizing b with
  | nil => exact ⟨b, rfl⟩
  | cons x l ih =>
    simp only [List.foldl_cons, pickLater]
    by_cases hx : lexLt b.time x.time = true
    · rw [if_pos hx]
      exact ih x
    · rw [if_neg hx]
      exact ih b

theorem foldl_pickLater_spec (l : List Evt) :
    ∀ b w, l.foldl pickLater (some b) = some w →
      (w = b ∨ w ∈ l) ∧
      (∀ x ∈ l, lexLt w.time x.time = false) ∧
      lexLt w.time b.time = false := by
  induction l with
  | nil =>
    intro b w h
    simp only [List.foldl_nil] at h
    injection h with h
    subst h
    exact ⟨Or.inl rfl, by simp, lexLt_irrefl _⟩
  | cons x l ih =>
    intro b w h
    simp only [List.foldl_cons, pickLater] at h
    by_cases hbx : lexLt b.time x.time = true
    · rw [if_pos hbx] at h
      rcases ih x w h with ⟨hmem, hmax, hx⟩
      refine ⟨?_, ?_, ?_⟩
      · rcases hmem with rfl | hmem
        · exact Or.inr (List.mem_cons_self _ _)
        · exact Or.inr (List.mem_cons_of_mem _ hmem)
      · intro y hy
        rcases List.mem_cons.mp hy with rfl | hy'
        · exact hx
        · exact hmax y hy'
      · cases hwb : lexLt w.time b.time with
        | false => rfl
        | true =>
          have := lexLt_trans hwb hbx
          rw [hx] at this
          exact absurd this (by simp)
    · rw [if_neg hbx] at h
      rcases ih b w h with ⟨hmem, hmax, hb⟩
      have hbxf : lexLt b.time x.time = false := by
        cases hq : lexLt b.time x.time with
        | false => rfl
        | true => exact absurd hq hbx
      refine ⟨?_, ?_, hb⟩
      · rcases hmem with rfl | hmem
        · exact Or.inl rfl
        · exact Or.inr (List.mem_cons_of_mem _ hmem)
      · intro y hy
        rcases List.mem_cons.mp hy with rfl | hy'
        · cases hwy : lexLt w.time y.time with
          | false => rfl
          | true =>
            rcases lexLt_trichot b.time y.time with hby | hyb | hey
            · rw [hbxf] at hby
              exact absurd hby (by simp)
            · have := lexLt_trans hwy hyb
              rw [hb] at this
              exact absurd this (by simp)
            · rw [← hey, hb] at hwy
              exact absurd hwy (by simp)
        · exact hmax y hy'

theorem lastWrite_spec (writes : List Evt) (r w : Evt)
    (h : lastWrite writes r = some w) :
    w ∈ writesBefore writes r ∧
      ∀ x ∈ writesBefore writes r, lexLt w.time x.time = false := by
  rcases hcand : writesBefore writes r with _ | ⟨c, cs⟩
  · rw [lastWrite, hcand] at h
    exact absurd h (by simp)
  · rw [lastWrite, hcand] at h
    simp only [List.foldl_cons, pickLater] at h
    rcases foldl_pickLater_spec cs c w h with ⟨hmem, hmax, hc⟩
    constructor
    · rcases hmem with rfl | hmem
      · exact List.mem_cons_self _ _
      · exact List.mem_cons_of_mem _ hmem
    · intro x hx
      rcases List.mem_cons.mp hx with rfl | hx'
      · exact hc
      · exact hmax x hx'

theorem mem_writesBefore (writes : List Evt) (r w : Evt) :
    w ∈ writesBefore writes r ↔
      w ∈ writes ∧ w.elem = r.elem ∧ lexLt w.time r.time = true := by
  simp [writesBefore, List.mem_filter, Bool.and_eq_true, decide_eq_true_eq,
    and_assoc]

theorem computeRAW_mem (writes reads : List Evt) (w r : Evt)
    (h : (w, r) ∈ computeRAW writes reads) :
    r ∈ reads ∧ lastWrite writes r = some w := by
  simp only [computeRAW, List.mem_filterMap] at h
  rcases h with ⟨r', hr', hmap⟩
  rcases Option.map_eq_some'.mp hmap with ⟨w', hw', hpair⟩
  have hw : w' = w := (Prod.mk.injEq _ _ _ _ ▸ hpair).1
  have hr : r' = r := (Prod.mk.injEq _ _ _ _ ▸ hpair).2
  subst hw
  subst hr
  exact ⟨hr', hw'⟩

/-- C3: the computed RAW relation has at most one source write per read
instance: any two edges targeting the same read agree on the source, the
source is a write to the read array element executing before the read
under the original order, and no other such candidate write executes
after it (last-write policy). -/
theorem raw_last_write_unique (writes reads : List Evt) (w1 w2 r : Evt)
    (h1 : (w1, r) ∈ computeRAW writes reads)
    (h2 : (w2, r) ∈ computeRAW writes reads) :
    w1 = w2 ∧
    w1 ∈ writes ∧ w1.elem = r.elem ∧ lexLt w1.time r.time = true ∧
    ∀ w' ∈ writes, w'.elem = r.elem → lexLt w'.time r.time = true →
      lexLt w1.time w'.time = false := by
  rcases computeRAW_mem writes reads w1 r h1 with ⟨_, hw1⟩
  rcases computeRAW_mem writes reads w2 r h2 with ⟨_, hw2⟩
  have heq : w1 = w2 := by
    rw [hw1] at hw2
    exact Option.some.inj hw2
  rcases lastWrite_spec writes r w1 hw1 with ⟨hmem, hmax⟩
  rcases (mem_writesBefore writes r w1).mp hmem with ⟨hin, helem, htime⟩
  refine ⟨heq, hin, helem, htime, ?_⟩
  intro w' hw' helem' htime'
  exact hmax w' ((mem_writesBefore writes r w').mpr ⟨hw', helem', htime'⟩)

/-- Concrete instantiation of the last-write uniqueness of the RAW
relation: two writes to the same element before one read; the edge keeps
the most recent write. -/
theorem raw_last_write_unique_witness :
    (⟨1, [1], [5]⟩ : Evt) = ⟨1, [1], [5]⟩ ∧ (⟨1, [1], [5]⟩ : Evt) ∈
      [(⟨0, [0], [5]⟩ : Evt), ⟨1, [1], [5]⟩] :=
  ⟨(raw_last_write_unique [⟨0, [0], [5]⟩, ⟨1, [1], [5]⟩] [⟨2, [2], [5]⟩]
      ⟨1, [1], [5]⟩ ⟨1, [1], [5]⟩ ⟨2, [2], [5]⟩ (by decide) (by decide)).1,
    (raw_last_write_unique [⟨0, [0], [5]⟩, ⟨1, [1], [5]⟩] [⟨2, [2], [5]⟩]
      ⟨1, [1], [5]⟩ ⟨1, [1], [5]⟩ ⟨2, [2], [5]⟩ (by decide) (by decide)).2.1⟩

theorem mkModel_ok_shape (ss : List RawStmt) :
    ∀ m, mkModel ss = Except.ok m →
      m.stmts = ss ∧ ∀ s ∈ ss, stmtValid s = true := by
  induction ss with
  | nil =>
    intro m h
    simp only [mkModel] at h
    cases h
    exact ⟨rfl, by simp⟩
  | cons s rest ih =>
    intro m h
    simp only [mkModel] at h
    cases ha : isAffineDomain s.domain with
    | false =>
      rw [ha] at h
      exact absurd h (by simp)
    | true =>
      rw [ha] at h
      cases hd : dimsOk s with
      | false =>
        rw [hd] at h
        exact absurd h (by simp)
      | true =>
        rw [hd] at h
        cases hrec : mkModel rest with
        | error e =>
          rw [hrec] at h
          exact absurd h (by simp)
        | ok m' =>
          rw [hrec] at h
          cases h
          rcases ih m' hrec with ⟨h1, h2⟩
          refine ⟨by simp [h1], ?_⟩
          intro t ht
          rcases List.mem_cons.mp ht with rfl | ht'
          · simp [stmtValid, ha, hd]
          · exact h2 t ht'

theorem mkModel_error_of_invalid (ss : List RawStmt) :
    (∃ s ∈ ss, stmtValid s = false) → ∃ e, mkModel ss = Except.error e := by
  induction ss with
  | nil =>
    intro h
    rcases h with ⟨s, hs, _⟩
    exact absurd hs (by simp)
  | cons s rest ih =>
    intro h
    simp only [mkModel]
    cases ha : isAffineDomain s.domain with
    | false => exact ⟨ModelError.nonAffineDomain, rfl⟩
    | true =>
      cases hd : dimsOk s with
      | false => exact ⟨ModelError.dimensionMismatch, rfl⟩
      | true =>
        have hrest : ∃ t ∈ rest, stmtValid t = false := by
          rcases h with ⟨t, ht, hval⟩
          rcases List.mem_cons.mp ht with rfl | ht'
          · rw [stmtValid, ha, hd] at hval
            exact absurd hval (by simp)
          · exact ⟨t, ht', hval⟩
        rcases ih hrest with ⟨e, he⟩
        rw [he]
        exact ⟨e, rfl⟩

theorem mkModel_nonaffine_error (ss : List RawStmt) :
    (∃ s ∈ ss, isAffineDomain s.domain = false) → (∀ s ∈ ss, dimsOk s = true) →
      mkModel ss = Except.error ModelError.nonAffineDomain := by
  induction ss with
  | nil =>
    intro h _
    rcases h with ⟨s, hs, _⟩
    exact absurd hs (by simp)
  | cons s rest ih =>
    intro h hdims
    simp only [mkModel]
    cases ha : isAffineDomain s.domain with
    | false => rfl
    | true =>
      have hd : dimsOk s = true := hdims s (List.mem_cons_self _ _)
      rw [hd]
      have hrest : ∃ t ∈ rest, isAffineDomain t.domain = false := by
        rcases h with ⟨t, ht, hval⟩
        rcases List.mem_cons.mp ht with rfl | ht'
        · rw [ha] at hval
          exact absurd hval (by simp)
        · exact ⟨t, ht', hval⟩
      have := ih hrest (fun t ht => hdims t (List.mem_cons_of_mem _ ht))
      rw [this]

theorem mkModel_mismatch_error (ss : List RawStmt) :
    (∀ s ∈ ss, isAffineDomain s.domain = true) → (∃ s ∈ ss, dimsOk s = false) →
      mkModel ss = Except.error ModelError.dimensionMismatch := by
  induction ss with
  | nil =>
    intro _ h
    rcases h with ⟨s, hs, _⟩
    exact absurd hs (by simp)
  | cons s rest ih =>
    intro haff h
    simp only [mkModel]
    have ha : isAffineDomain s.domain = true := haff s (List.mem_cons_self _ _)
    rw [ha]
    cases hd : dimsOk s with
    | false => rfl
    | true =>
      have hrest : ∃ t ∈ rest, dimsOk t = false := by
        rcases h with ⟨t, ht, hval⟩
        rcases List.mem_cons.mp ht with rfl | ht'
        · rw [hd] at hval
          exact absurd hval (by simp)
        · exact ⟨t, ht', hval⟩
      have := ih (fun t ht => haff t (List.mem_cons_of_mem _ ht)) hrest
      rw [this]

/-- C7 counterexample: an input whose first statement has a non-affine
domain and whose second statement has a dimension mismatch is rejected
with NonAffineDomain, not with DimensionMismatch, although a mismatching
access relation is present; so the claim that construction fails with
DimensionMismatch whenever some access dimensionality disagrees does not
hold when both violations coexist. -/
theorem model_errors_counterexample :
    stmtMismatch ∈ bothBadInput ∧ dimsOk stmtMismatch = false ∧
    mkModel bothBadInput = Except.error ModelError.nonAffineDomain ∧
    mkModel bothBadInput ≠ Except.error ModelError.dimensionMismatch := by
  refine ⟨by decide, by decide, rfl, ?_⟩
  intro h
  rw [show mkModel bothBadInput = Except.error ModelError.nonAffineDomain from rfl] at h
  exact absurd (Except.error.inj h) (by decide)

/-- C7 amended: model construction never returns a partial model: on
success the model carries exactly the input statements and every input
statement is valid; any violation yields an error; when some domain is
non-affine and every access dimensionality agrees the error is
NonAffineDomain; when every domain is affine and some access
dimensionality disagrees the error is DimensionMismatch; when both kinds
of violations are present, a single one of the two errors is reported. -/
theorem model_construction_errors (ss : List RawStmt) :
    (∀ m, mkModel ss = Except.ok m →
      m.stmts = ss ∧ ∀ s ∈ ss, stmtValid s = true) ∧
    ((∃ s ∈ ss, stmtValid s = false) → ∃ e, mkModel ss = Except.error e) ∧
    ((∃ s ∈ ss, isAffineDomain s.domain = false) → (∀ s ∈ ss, dimsOk s = true) →
      mkModel ss = Except.error ModelError.nonAffineDomain) ∧
    ((∀ s ∈ ss, isAffineDomain s.domain = true) → (∃ s ∈ ss, dimsOk s = false) →
      mkModel ss = Except.error ModelError.dimensionMismatch) :=
  ⟨mkModel_ok_shape ss, mkModel_error_of_invalid ss,
    mkModel_nonaffine_error ss, mkModel_mismatch_error ss⟩

/-- Concrete instantiation of the amended model construction contract:
a lone mismatching statement is rejected with DimensionMismatch. -/
theorem model_construction_errors_witness :
    mkModel [stmtMismatch] = Except.error ModelError.dimensionMismatch :=
  (model_construction_errors [stmtMismatch]).2.2.2 (by decide)
    ⟨stmtMismatch, by decide, by decide⟩

theorem findAffineLoop_none_iff (aff : LoopT → Bool) (loops : List LoopT) :
    findAffineLoop aff loops = none ↔ ∀ L ∈ loops, aff L = false := by
  induction loops with
  | nil => simp [findAffineLoop]
  | cons L rest ih =>
    simp only [findAffineLoop]
    cases hL : aff L with
    | true => simp [hL]
    | false => simp [hL, ih]

theorem findAffineLoop_some_first (aff : LoopT → Bool) (loops : List LoopT) (L : LoopT)
    (h : findAffineLoop aff loops = some L) :
    ∃ pre post, loops = pre ++ L :: post ∧ aff L = true ∧
      ∀ L' ∈ pre, aff L' = false := by
  induction loops with
  | nil => exact absurd h (by simp [findAffineLoop])
  | cons M rest ih =>
    simp only [findAffineLoop] at h
    cases hM : aff M with
    | true =>
      rw [hM] at h
      simp only [if_pos rfl] at h
      have : M = L := Option.some.inj h
      subst this
      exact ⟨[], rest, rfl, hM, by simp⟩
    | false =>
      rw [hM] at h
      rw [if_neg (by simp)] at h
      rcases ih h with ⟨pre, post, hsplit, hL, hpre⟩
      refine ⟨M :: pre, post, by simp [hsplit], hL, ?_⟩
      intro L' hL'
      rcases List.mem_cons.mp hL' with rfl | hmem
      · exact hM
      · exact hpre L' hmem

/-- C8: SCoP detection models at most one loop: a produced result is the
singleton holding the first loop of the list passing the affine test, and
detection yields the empty result exactly when the function is ineligible
or no loop passes the test, even when later affine loops exist. -/
theorem scop_detection_single_first (eligible : Bool) (aff : LoopT → Bool)
    (loops : List LoopT) :
    (scopDetectionRun eligible aff loops = none ↔
      (eligible = false ∨ ∀ L ∈ loops, aff L = false)) ∧
    (∀ r, scopDetectionRun eligible aff loops = some r →
      ∃ L pre post, r = [L] ∧ loops = pre ++ L :: post ∧ aff L = true ∧
        ∀ L' ∈ pre, aff L' = false) := by
  cases eligible with
  | false => simp [scopDetectionRun]
  | true =>
    constructor
    · simp only [scopDetectionRun]
      rw [if_neg (by simp)]
      cases hfind : findAffineLoop aff loops with
      | none =>
        constructor
        · intro _
          exact Or.inr ((findAffineLoop_none_iff aff loops).mp hfind)
        · intro _
          trivial
      | some L =>
        rcases findAffineLoop_some_first aff loops L hfind with ⟨pre, post, hsplit, hL, _⟩
        constructor
        · intro h
          exact absurd h (by simp)
        · intro h
          rcases h with h | h
          · exact absurd h (by simp)
          · have : aff L = false := h L (by rw [hsplit]; simp)
            rw [hL] at this
            exact absurd this (by simp)
    · intro r hr
      simp only [scopDetectionRun] at hr
      rw [if_neg (by simp)] at hr
      cases hfind : findAffineLoop aff loops with
      | none =>
        rw [hfind] at hr
        exact absurd hr (by simp)
      | some L =>
        rw [hfind] at hr
        have hrL : r = [L] := (Option.some.inj hr).symm
        rcases findAffineLoop_some_first aff loops L hfind with ⟨pre, post, hsplit, hL, hpre⟩
        exact ⟨L, pre, post, hrL, hsplit, hL, hpre⟩

/-- Concrete instantiation of the first-hit detection: the list holds a
non-affine loop, then two affine ones; the result is the singleton of the
middle loop. -/
theorem scop_detection_single_first_witness :
    ∃ L pre post, ([⟨1, []⟩] : List LoopT) = [L] ∧
      ([⟨0, []⟩, ⟨1, []⟩, ⟨3, []⟩] : List LoopT) = pre ++ L :: post ∧
      affOdd L = true ∧ ∀ L' ∈ pre, affOdd L' = false :=
  (scop_detection_single_first true affOdd [⟨0, []⟩, ⟨1, []⟩, ⟨3, []⟩]).2
    [⟨1, []⟩] (by decide)

theorem buildScop_bb_length (bb : List Inst) :
    (bb.filterMap (fun i =>
      match i with
      | Inst.store id => some (buildStmtForStore id)
      | Inst.load _ => none
      | Inst.other _ => none)).length =
      bb.countP (fun i =>
        match i with
        | Inst.store _ => true
        | Inst.load _ => false
        | Inst.other _ => false) := by
  induction bb with
  | nil => rfl
  | cons i bb ih =>
    cases i with
    | store id => simp [List.filterMap_cons, List.countP_cons, ih]
    | load id => simp [List.filterMap_cons, List.countP_cons, ih]
    | other id => simp [List.filterMap_cons, List.countP_cons, ih]

/-- C9: every statement lifted by buildScop originates from a store
instruction of one of the basic blocks, it carries exactly one WRITE
access followed by one READ access, each access has the two-dimensional
iteration-vector source of the statement domain, and the number of lifted
statements equals the number of store instructions, so loads are never
lifted. -/
theorem buildScop_stmt_shape (bbs : List (List Inst)) :
    (∀ st ∈ buildScop bbs,
      (∃ bb ∈ bbs, Inst.store st.sid ∈ bb) ∧
      st.accesses.map AccessRel.kind = [MemKind.MK_WRITE, MemKind.MK_READ] ∧
      st.domainDim = 2 ∧
      ∀ a ∈ st.accesses, a.srcDim = 2 ∧ a.srcDim = st.domainDim) ∧
    (buildScop bbs).length = countStores bbs := by
  constructor
  · intro st hst
    simp only [buildScop, List.mem_flatMap] at hst
    rcases hst with ⟨bb, hbb, hmem⟩
    simp only [List.mem_filterMap] at hmem
    rcases hmem with ⟨i, hi, hsome⟩
    cases i with
    | store id =>
      have hstmt : st = buildStmtForStore id := (Option.some.inj hsome).symm
      subst hstmt
      refine ⟨⟨bb, hbb, hi⟩, rfl, rfl, ?_⟩
      intro a ha
      rcases List.mem_cons.mp ha with rfl | ha'
      · exact ⟨rfl, rfl⟩
      · rcases List.mem_cons.mp ha' with rfl | ha''
        · exact ⟨rfl, rfl⟩
        · exact absurd ha'' (by simp)
    | load id => exact absurd hsome (by simp)
    | other id => exact absurd hsome (by simp)
  · simp only [buildScop, countStores]
    induction bbs with
    | nil => rfl
    | cons bb bbs ih =>
      simp only [List.flatMap_cons, List.map_cons, List.sum_cons, List.length_append,
        ih, buildScop_bb_length]

/-- Concrete instantiation of the statement shape of buildScop: one block
holding a load and a store lifts exactly the store. -/
theorem buildScop_stmt_shape_witness :
    (∃ bb ∈ [[Inst.load 9, Inst.store 5]], Inst.store (buildStmtForStore 5).sid ∈ bb) ∧
    (buildStmtForStore 5).accesses.map AccessRel.kind =
      [MemKind.MK_WRITE, MemKind.MK_READ] ∧
    (buildStmtForStore 5).domainDim = 2 ∧
    ∀ a ∈ (buildStmtForStore 5).accesses,
      a.srcDim = 2 ∧ a.srcDim = (buildStmtForStore 5).domainDim :=
  (buildScop_stmt_shape [[Inst.load 9, Inst.store 5]]).1 (buildStmtForStore 5)
    (by decide)

/-- C10: with no SCoP available each pass preserves all analyses and
leaves the function completely unchanged: BuildScopPass when detection
produced no result, OptimizeSchedulePass and CodeGenPass when the
function carries no polly.scop metadata. -/
theorem no_scop_passes_noop (detect : Option (List LoopT)) (F : IRFunction)
    (hdetect : detect = none) (hmeta : F.scopMeta = none) :
    buildScopPassRun detect F = (PreservedAnalyses.all, F) ∧
    optimizeSchedulePassRun F = (PreservedAnalyses.all, F) ∧
    codeGenPassRun F = (PreservedAnalyses.all, F) := by
  subst hdetect
  refine ⟨rfl, ?_, ?_⟩
  · simp [optimizeSchedulePassRun, hmeta]
  · simp [codeGenPassRun, hmeta]

/-- Concrete instantiation of the no-SCoP frame property. -/
theorem no_scop_passes_noop_witness :
    optimizeSchedulePassRun ⟨none, [1, 2]⟩ = (PreservedAnalyses.all, ⟨none, [1, 2]⟩) :=
  (no_scop_passes_noop none ⟨none, [1, 2]⟩ rfl rfl).2.1

end PollyCore
